import Mathlib

/-!
Verification of the Brainfuck JIT compiler pipeline (parser, IR builder,
peephole optimizer, x86-64 emitter) as a shallow embedding.

Each definition mirrors one function of the Rust source; doc comments name
the source location.  Machine integers are embedded as `Nat` with explicit
`% 256` where the source has (release-mode, i.e. wrapping) `u8` arithmetic.
Fallible code (Rust `panic!` / `.expect`) is embedded in `Option`; loops
whose termination is not structural take an explicit fuel argument, and
the theorems prove the fuel used by the wrappers sufficient.
-/

namespace BfJit

/-- Primitive Brainfuck operation, `enum Op` of `src/brainfuck.rs`. -/
inductive Op where
  | IncrementPtr
  | DecrementPtr
  | IncrementMemory
  | DecrementMemory
  | ReadByte
  | WriteByte
  | JumpForward
  | JumpBackward
deriving DecidableEq, Repr

/-- The character table of `Op::from_char` (`src/brainfuck.rs`).  Exactly the
eight characters of the Brainfuck alphabet are mapped; every other character
yields `none`. -/
def opFromChar (character : Char) : Option Op :=
  match character with
  | '>' => some Op.IncrementPtr
  | '<' => some Op.DecrementPtr
  | '+' => some Op.IncrementMemory
  | '-' => some Op.DecrementMemory
  | '.' => some Op.WriteByte
  | ',' => some Op.ReadByte
  | '[' => some Op.JumpForward
  | ']' => some Op.JumpBackward
  | _ => none

/-- `Program::from_string` (`src/brainfuck.rs`): maps `Op::from_char` over the
characters of the source and keeps the hits (`filter_map`).  The `Program`
struct holds just this instruction vector. -/
def fromString (string : List Char) : List Op :=
  string.filterMap opFromChar

/-- Loop body of `Program::find_matching_jump_end` (`src/brainfuck.rs`).
`none` models the panic (either the explicit `unbalanced parentheses` panic
or the out-of-bounds index panic at `self.instructions[pos]`).  The fuel is
an upper bound on the number of iterations; the wrapper passes enough. -/
def fmjeAux (instructions : List Op) (pos : Nat) (level : Int) : Nat → Option Nat
  | 0 => none
  | fuel + 1 =>
    match instructions.get? pos with
    | none => none
    | some op =>
      let level' : Int :=
        match op with
        | Op.JumpForward => level + 1
        | Op.JumpBackward => level - 1
        | _ => level
      if level' = 0 then some pos
      else fmjeAux instructions (pos + 1) level' fuel

/-- `Program::find_matching_jump_end` (`src/brainfuck.rs`): forward linear
scan with a nesting counter.  The scan visits at most
`instructions.length + 1` positions before running off the end. -/
def findMatchingJumpEnd (instructions : List Op) (jumpStartPos : Nat) : Option Nat :=
  fmjeAux instructions jumpStartPos 0 (instructions.length + 1)

/-- Loop body of `Program::find_matching_jump_start` (`src/brainfuck.rs`).
`none` models the `unbalanced parentheses` panic reached when `pos == 0`
while the counter is still non-zero (or an out-of-range start index). -/
def fmjsAux (instructions : List Op) (pos : Nat) (level : Int) : Nat → Option Nat
  | 0 => none
  | fuel + 1 =>
    match instructions.get? pos with
    | none => none
    | some op =>
      let level' : Int :=
        match op with
        | Op.JumpForward => level - 1
        | Op.JumpBackward => level + 1
        | _ => level
      if level' = 0 then some pos
      else if pos = 0 then none
      else fmjsAux instructions (pos - 1) level' fuel

/-- `Program::find_matching_jump_start` (`src/brainfuck.rs`): backward linear
scan with a nesting counter; at most `pos + 1` positions are visited. -/
def findMatchingJumpStart (instructions : List Op) (jumpEndPos : Nat) : Option Nat :=
  fmjsAux instructions jumpEndPos 0 (jumpEndPos + 1)

end BfJit

namespace BfJit

/-- Operation of the intermediate representation, `enum IrOp` of `src/ir.rs`.
The first argument of every constructor is the `next` link (an optional index
into the IR vector); jump constructors carry a secondary link (the branch
target).  `u8` payloads are embedded as `Nat` (values `< 256`). -/
inductive IrOp where
  | Noop (l : Option Nat)
  | Right (l : Option Nat) (n : Nat)
  | Left (l : Option Nat) (n : Nat)
  | Add (l : Option Nat) (n : Nat)
  | Sub (l : Option Nat) (n : Nat)
  | SetIndirect (l : Option Nat) (n : Nat)
  | MulCopy (l : Option Nat) (offset : Nat) (factor : Nat)
  | Write (l : Option Nat)
  | Read (l : Option Nat)
  | JumpIfZero (l : Option Nat) (target : Option Nat)
  | JumpIfNotZero (l : Option Nat) (target : Option Nat)
deriving DecidableEq, Repr

/-- `IrOp::next` (`src/ir.rs`): the `next` link of any IR node. -/
def IrOp.next : IrOp → Option Nat
  | .Noop l => l
  | .Right l _ => l
  | .Left l _ => l
  | .Add l _ => l
  | .Sub l _ => l
  | .SetIndirect l _ => l
  | .MulCopy l _ _ => l
  | .Write l => l
  | .Read l => l
  | .JumpIfZero l _ => l
  | .JumpIfNotZero l _ => l

/-- One iteration of the build loop of `IrCode::new` (`src/ir.rs`): wrap the
primitive at position `idx` as an IR node whose `next` is `idx + 1` (or none
for the last primitive).  Jump primitives consult the bracket scans; a failed
scan is the `unbalanced parentheses` panic, i.e. `none`. -/
def buildOp (program : List Op) (idx : Nat) (op : Op) : Option IrOp :=
  let isLast := program.length - 1 = idx
  let next : Option Nat := if isLast then none else some (idx + 1)
  match op with
  | Op.IncrementPtr => some (IrOp.Right next 1)
  | Op.DecrementPtr => some (IrOp.Left next 1)
  | Op.IncrementMemory => some (IrOp.Add next 1)
  | Op.DecrementMemory => some (IrOp.Sub next 1)
  | Op.ReadByte => some (IrOp.Read next)
  | Op.WriteByte => some (IrOp.Write next)
  | Op.JumpForward =>
      (findMatchingJumpEnd program idx).map fun e => IrOp.JumpIfZero next (some (e + 1))
  | Op.JumpBackward =>
      (findMatchingJumpStart program idx).map fun s => IrOp.JumpIfNotZero next (some s)

/-- The enumeration loop of `IrCode::new` (`src/ir.rs`): build one node per
primitive, left to right; the first panic aborts the whole construction. -/
def irNewGo (program : List Op) : List Op → Nat → Option (List IrOp)
  | [], _ => some []
  | op :: rest, idx => do
    let x ← buildOp program idx op
    let xs ← irNewGo program rest (idx + 1)
    pure (x :: xs)

/-- `IrCode::new` (`src/ir.rs`). -/
def irNew (program : List Op) : Option (List IrOp) :=
  irNewGo program program 0

/-- Wrapping `u8` addition: the semantics of `x + y` on `u8` operands in
`IrCode::find_replacement` (release build; the spec fixes all operand
arithmetic to be modulo 256). -/
def u8add (x y : Nat) : Nat :=
  (x + y) % 256

/-- `u8::wrapping_sub` as used for the `SetIndirect`/`Sub` fusion. -/
def u8sub (x y : Nat) : Nat :=
  (x + (256 - y % 256)) % 256

/-- Reinterpretation `x as i8` of a byte value. -/
def toI8 (n : Nat) : Int :=
  if n % 256 < 128 then (n % 256 : Int) else (n % 256 : Int) - 256

/-- Wrapping of an integer into the `i8` range, the semantics of `i8`
arithmetic in the mixed fusion arms (release build). -/
def wrapI8 (z : Int) : Int :=
  (z + 128) % 256 - 128

/-- Reinterpretation `z as u8` of an `i8` value. -/
def i8ToU8 (z : Int) : Nat :=
  (z % 256).toNat

/-- The three-node block of `IrCode::find_replacement` (`src/ir.rs`, the
clear-loop patterns): `JumpIfZero; Sub(1); JumpIfNotZero` (and the `Add(1)`
variant) becomes `SetIndirect(0)` linked to the `next` (fall-through) link
of the `JumpIfNotZero`. -/
def tripleRule (current next subsequent : IrOp) : Option IrOp :=
  match current, next, subsequent with
  | IrOp.JumpIfZero _ _, IrOp.Sub _ 1, IrOp.JumpIfNotZero far _ =>
      some (IrOp.SetIndirect far 0)
  | IrOp.JumpIfZero _ _, IrOp.Add _ 1, IrOp.JumpIfNotZero far _ =>
      some (IrOp.SetIndirect far 0)
  | _, _, _ => none

/-- The two-node block of `IrCode::find_replacement` (`src/ir.rs`), in the
source's arm order.  `far` always denotes the `next` link of the second
node, so the replacement skips it in the chain.  The default arm returns
the current node unchanged. -/
def pairRule (current next : IrOp) : IrOp :=
  match current, next with
  | IrOp.Add _ x, IrOp.Add far y => IrOp.Add far (u8add x y)
  | IrOp.Sub _ x, IrOp.Sub far y => IrOp.Sub far (u8add x y)
  | IrOp.Sub _ x, IrOp.Add far y =>
      let result := wrapI8 (toI8 y - toI8 x)
      if 0 < result then IrOp.Add far (i8ToU8 result)
      else IrOp.Sub far (i8ToU8 (wrapI8 (-result)))
  | IrOp.Add _ x, IrOp.Sub far y =>
      let result := wrapI8 (toI8 x - toI8 y)
      if 0 < result then IrOp.Add far (i8ToU8 result)
      else IrOp.Sub far (i8ToU8 (wrapI8 (-result)))
  | IrOp.Right _ x, IrOp.Right far y => IrOp.Right far (u8add x y)
  | IrOp.Left _ x, IrOp.Left far y => IrOp.Left far (u8add x y)
  | IrOp.Right _ x, IrOp.Left far y =>
      let result := wrapI8 (toI8 x - toI8 y)
      if 0 < result then IrOp.Right far (i8ToU8 result)
      else IrOp.Left far (i8ToU8 (wrapI8 (-result)))
  | IrOp.Left _ x, IrOp.Right far y =>
      let result := wrapI8 (toI8 y - toI8 x)
      if 0 < result then IrOp.Right far (i8ToU8 result)
      else IrOp.Left far (i8ToU8 (wrapI8 (-result)))
  | IrOp.SetIndirect _ c, IrOp.Add far x => IrOp.SetIndirect far (u8add c x)
  | IrOp.SetIndirect _ c, IrOp.Sub far x => IrOp.SetIndirect far (u8sub c x)
  | IrOp.Add _ _, IrOp.SetIndirect far c => IrOp.SetIndirect far c
  | IrOp.Sub _ _, IrOp.SetIndirect far c => IrOp.SetIndirect far c
  | IrOp.SetIndirect _ _, IrOp.SetIndirect far c => IrOp.SetIndirect far c
  | c, _ => c

/-- `IrCode::find_replacement` (`src/ir.rs`).  `none` models the panics of
the three `.expect` calls (current / next / subsequent index not found). -/
def findReplacement (ops : List IrOp) (currentIdx : Nat) : Option IrOp :=
  match ops.get? currentIdx with
  | none => none
  | some current =>
    match current.next with
    | none => some current
    | some nextIdx =>
      match ops.get? nextIdx with
      | none => none
      | some next =>
        match next.next with
        | some subsequentIdx =>
          match ops.get? subsequentIdx with
          | none => none
          | some subsequent =>
            match tripleRule current next subsequent with
            | some r => some r
            | none => some (pairRule current next)
        | none => some (pairRule current next)

/-- The loop of `IrCode::optimize_program_once` (`src/ir.rs`): starting from
node 0, replace the current node in place and advance through the
replacement's `next` link, counting visited nodes.  `idx = none` embeds the
`usize::MAX` sentinel; the fuel bounds the iteration count (the wrapper's
fuel is proved sufficient for well-formed codes). -/
def passAux (ops : List IrOp) (idx : Option Nat) (len : Nat) : Nat → Option (List IrOp × Nat)
  | 0 => none
  | fuel + 1 =>
    match idx with
    | none => some (ops, len)
    | some i =>
      match findReplacement ops i with
      | none => none
      | some r => passAux (ops.set i r) r.next (len + 1) fuel

/-- `IrCode::optimize_program_once` (`src/ir.rs`). -/
def optimizeOnce (ops : List IrOp) : Option (List IrOp × Nat) :=
  passAux ops (some 0) 0 (ops.length + 1)

/-- The loop of `IrCode::optimize` (`src/ir.rs`): repeat the pass until the
visited count stops strictly decreasing (`new >= old`). -/
def optimizeLoop (ops : List IrOp) (old passFuel : Nat) : Nat → Option (List IrOp)
  | 0 => none
  | loopFuel + 1 =>
    match passAux ops (some 0) 0 passFuel with
    | none => none
    | some (ops2, new) =>
      if old ≤ new then some ops2 else optimizeLoop ops2 new passFuel loopFuel

/-- `IrCode::optimize` (`src/ir.rs`): one initial pass, then the loop. -/
def optimize (ops : List IrOp) : Option (List IrOp) :=
  match optimizeOnce ops with
  | none => none
  | some (ops1, c1) => optimizeLoop ops1 c1 (ops.length + 1) (ops.length + 2)

/-- The loop of `IrCode::len` (`src/ir.rs`): walk the chain from node 0,
incrementing the count before each fetch; a missing node is the
`cannot get next instruction` panic. -/
def lenAux (ops : List IrOp) (idx acc : Nat) : Nat → Option Nat
  | 0 => none
  | fuel + 1 =>
    match ops.get? idx with
    | none => none
    | some curr =>
      match curr.next with
      | none => some (acc + 1)
      | some t => lenAux ops t (acc + 1) fuel

/-- `IrCode::len` (`src/ir.rs`). -/
def irLen (ops : List IrOp) : Option Nat :=
  lenAux ops 0 0 (ops.length + 1)

/-- `IrCode::iter` (`src/ir.rs`): collect the reachable chain from node 0.
A `none` link is replaced by an out-of-range index (the source uses
`usize::MAX`), so the following fetch fails and the walk stops. -/
def chainAux (ops : List IrOp) (idx : Nat) : Nat → Option (List IrOp)
  | 0 => none
  | fuel + 1 =>
    match ops.get? idx with
    | none => some []
    | some t =>
      let nextIdx := match t.next with | some j => j | none => ops.length
      (chainAux ops nextIdx fuel).map (t :: ·)

/-- The op sequence produced by `IrCode::iter` from node 0. -/
def chain (ops : List IrOp) : Option (List IrOp) :=
  chainAux ops 0 (ops.length + 2)

/-- Length of the chain starting at an optional index (verification helper:
the value `IrCode::len` computes, walking `next` links). -/
def chainLenAux (ops : List IrOp) (idx : Option Nat) : Nat → Option Nat
  | 0 => none
  | fuel + 1 =>
    match idx with
    | none => some 0
    | some i =>
      match ops.get? i with
      | none => none
      | some op => (chainLenAux ops op.next fuel).map (· + 1)

/-- Executable well-formedness check for an IR vector: every `next` link
points strictly forward and stays inside the vector.  This is the
acyclic-chain shape all codes built by `IrCode::new` have, and the
optimizer preserves it. -/
def wfB (ops : List IrOp) : Bool :=
  (List.range ops.length).all fun i =>
    match ops.get? i with
    | some op =>
      match op.next with
      | some j => decide (i < j) && decide (j < ops.length)
      | none => true
    | none => true

/-- Propositional form of `wfB`. -/
def WfLinks (ops : List IrOp) : Prop :=
  ∀ i op j, ops.get? i = some op → op.next = some j → i < j ∧ j < ops.length

end BfJit

namespace BfJit

/-- Execution state of an IR program: program counter (`none` is the
terminated / `usize::MAX` state), data pointer, tape, input stream with a
read cursor, and the output byte sequence produced so far. -/
structure ExecState where
  pc : Option Nat
  ptr : Nat
  mem : Nat → Nat
  inp : Nat → Nat
  ic : Nat
  out : List Nat

/-- Pointwise tape update. -/
def memUpd (m : Nat → Nat) (a v : Nat) : Nat → Nat :=
  fun x => if x = a then v else m x

/-- Modelled from the spec: the effect of one IR op (spec section 3, "IR op",
and the reference interpreter of `src/interpreter.rs` lifted to IR).  The
repository executes IR only through the JIT, which is not shallowly
embeddable, so the reference semantics of each op is taken from the spec's
data model: pointer deltas for `Right`/`Left`, cell arithmetic modulo 256
for `Add`/`Sub`, constant store for `SetIndirect`, byte I/O for
`Read`/`Write`, and conditional branches through the secondary link for the
jumps. -/
def irExec (op : IrOp) (s : ExecState) : ExecState :=
  match op with
  | IrOp.Noop l => { s with pc := l }
  | IrOp.Right l n => { s with pc := l, ptr := s.ptr + n }
  | IrOp.Left l n => { s with pc := l, ptr := s.ptr - n }
  | IrOp.Add l n => { s with pc := l, mem := memUpd s.mem s.ptr ((s.mem s.ptr + n) % 256) }
  | IrOp.Sub l n => { s with pc := l, mem := memUpd s.mem s.ptr (u8sub (s.mem s.ptr) n) }
  | IrOp.SetIndirect l n => { s with pc := l, mem := memUpd s.mem s.ptr (n % 256) }
  | IrOp.MulCopy l off factor =>
      let tgt := (((s.ptr : Int) + toI8 off).toNat)
      { s with pc := l,
               mem := memUpd (memUpd s.mem tgt ((s.mem tgt + factor * s.mem s.ptr) % 256))
                        s.ptr 0 }
  | IrOp.Write l => { s with pc := l, out := s.out ++ [s.mem s.ptr] }
  | IrOp.Read l =>
      { s with pc := l, mem := memUpd s.mem s.ptr (s.inp s.ic % 256), ic := s.ic + 1 }
  | IrOp.JumpIfZero l t => if s.mem s.ptr = 0 then { s with pc := t } else { s with pc := l }
  | IrOp.JumpIfNotZero l t => if s.mem s.ptr = 0 then { s with pc := l } else { s with pc := t }

/-- Modelled from the spec: fueled execution of an IR program.  Execution
halts when the program counter is `none` or leaves the op vector (both mean
control reached the epilogue in the emitted code). -/
def irRun (ops : List IrOp) (s : ExecState) : Nat → Option ExecState
  | 0 => none
  | fuel + 1 =>
    match s.pc with
    | none => some s
    | some i =>
      match ops.get? i with
      | none => some s
      | some op => irRun ops (irExec op s) fuel

/-- The initial execution state on a zero tape. -/
def initState (inp : Nat → Nat) : ExecState :=
  { pc := some 0, ptr := 0, mem := fun _ => 0, inp := inp, ic := 0, out := [] }

/-- The output byte sequence of a halting execution. -/
def irOutput (ops : List IrOp) (inp : Nat → Nat) (fuel : Nat) : Option (List Nat) :=
  (irRun ops (initState inp) fuel).map ExecState.out

end BfJit

namespace BfJit

/-- `enum X64Register` of `src/assembler.rs`. -/
inductive X64Register where
  | RAX | RCX | RDX | RBX | RSP | RBP | RSI | RDI
  | R8 | R9 | R10 | R11 | R12 | R13 | R14 | R15
deriving DecidableEq, Repr

/-- The discriminant of `X64Register` (`RAX = 0`, ..., `R15 = 15`). -/
def X64Register.toNat : X64Register → Nat
  | .RAX => 0 | .RCX => 1 | .RDX => 2 | .RBX => 3
  | .RSP => 4 | .RBP => 5 | .RSI => 6 | .RDI => 7
  | .R8 => 8 | .R9 => 9 | .R10 => 10 | .R11 => 11
  | .R12 => 12 | .R13 => 13 | .R14 => 14 | .R15 => 15

/-- `X64Register::is_extended` (`src/assembler.rs`): discriminant above 7. -/
def X64Register.isExtended (r : X64Register) : Bool :=
  7 < r.toNat

/-- `X64Register::to_u8` (`src/assembler.rs`): low three bits. -/
def X64Register.toU8 (r : X64Register) : Nat :=
  r.toNat % 8

/-- The REX prefix constants of `src/assembler.rs` (`bitflags`): `B`, `R`,
`W` and the flag union used by the byte-store instructions. -/
def rexB : Nat := 0x41

/-- REX prefix with only the R bit. -/
def rexR : Nat := 0x44

/-- REX prefix with only the W bit. -/
def rexW : Nat := 0x48

/-- `Assembler::mod_rm` (`src/assembler.rs`): `(mod << 6) | (reg << 3) | rm`,
truncated to a byte as the `u8` shift is. -/
def modRM (md regOpcode rm : Nat) : Nat :=
  (md * 64 + regOpcode * 8 + rm) % 256

/-- `Assembler::sib` (`src/assembler.rs`): `(scale << 6) | (index << 3) | base`. -/
def sib (base scale index : Nat) : Nat :=
  (scale * 64 + index * 8 + base) % 256

/-- `Assembler::op_80` (`src/assembler.rs`): the byte sequence of the `0x80`
group instruction (`add`/`sub`/`cmp byte ptr [base], imm8` selected by the
opcode extension), with the SIB escape for R12 and the `disp8 = 0` escape
for R13. -/
def op80 (opcode : Nat) (memory : X64Register) (imm : Nat) : List Nat :=
  (if memory.isExtended then [rexB] else [])
    ++ [0x80]
    ++ (match memory with
        | X64Register.R12 => [modRM 0b00 opcode 4, sib 4 0 4]
        | X64Register.R13 => [modRM 0b01 opcode 0b101, 0x00]
        | _ => [modRM 0b00 opcode memory.toU8])
    ++ [imm]

/-- `Assembler::add_indirect` (`src/assembler.rs`): `op_80` with extension 0. -/
def addIndirect (memory : X64Register) (imm : Nat) : List Nat :=
  op80 0 memory imm

/-- `Assembler::sub_indirect` (`src/assembler.rs`): `op_80` with extension 5. -/
def subIndirect (memory : X64Register) (imm : Nat) : List Nat :=
  op80 5 memory imm

/-- `Assembler::mov_to_reg` (`src/assembler.rs`): `movzx to, byte ptr
[from_memory]` — REX (W always, B/R as forced), escape opcode `0F B6`, and
the ModR/M (plus the R12/R13 escapes) for the memory operand. -/
def movToReg (toReg fromMemory : X64Register) : List Nat :=
  let rex := rexW + (if fromMemory.isExtended then 1 else 0)
    + (if toReg.isExtended then 4 else 0)
  [rex, 0x0F, 0xB6]
    ++ (match fromMemory with
        | X64Register.R12 => [modRM 0b00 toReg.toU8 4, sib 4 0 4]
        | X64Register.R13 => [modRM 0b01 toReg.toU8 0b101, 0x00]
        | _ => [modRM 0b00 toReg.toU8 fromMemory.toU8])

/-- `Assembler::call` (`src/assembler.rs`): `FF /2` with the literal
(decimal) `11` mod field the source passes to `mod_rm`. -/
def callReg (reg : X64Register) : List Nat :=
  (if reg.isExtended then [rexB] else []) ++ [0xFF, modRM 11 2 reg.toU8]

/-- The `IrOp::Write` arm of the emission loop of `IrCode::compile`
(`src/compiler.rs`): `mov_to_reg(RCX, PTR_REGISTER)` followed by
`call(PUTCHAR_REGISTER)`, with `PTR_REGISTER = R14` and
`PUTCHAR_REGISTER = R12`. -/
def writeEmit : List Nat :=
  movToReg X64Register.RCX X64Register.R14 ++ callReg X64Register.R12

/-- Modelled from the spec: the canonical encodings of the register-to-
register instruction `mov rcx, r14` that the spec (section 4.4.3) claims the
`Write` arm emits.  The instruction does not occur anywhere in the source;
its two possible x86-64 encodings (`89 /r` and `8B /r` forms) are listed so
the emitted bytes can be compared against the claim. -/
def movRcxR14Claimed : List (List Nat) :=
  [[0x4C, 0x89, 0xF1], [0x49, 0x8B, 0xCE]]

/-- The first step of `IrCode::compile` (`src/compiler.rs`): compute
`self.len()` and allocate `256 + length * 16` bytes.  A panic in `len`
aborts `compile` before anything is emitted. -/
def compileAllocSize (ops : List IrOp) : Option Nat :=
  (irLen ops).map fun length => 256 + length * 16

end BfJit

namespace BfJit

/-- The eight-character Brainfuck alphabet, as listed by the spec. -/
def bfChars : List Char :=
  ['>', '<', '+', '-', '.', ',', '[', ']']

/-- The spec's table from alphabet characters to primitive ops (used to state
parse fidelity; the default arm is never reached under the alphabet
filter). -/
def primOf (c : Char) : Op :=
  match c with
  | '>' => Op.IncrementPtr
  | '<' => Op.DecrementPtr
  | '+' => Op.IncrementMemory
  | '-' => Op.DecrementMemory
  | '.' => Op.WriteByte
  | ',' => Op.ReadByte
  | '[' => Op.JumpForward
  | ']' => Op.JumpBackward
  | _ => Op.IncrementPtr

/-- A halting source program on which the optimizer changes observable
behaviour: one increment, 256 pointer increments, one write.  The 256 unit
`Right` nodes fuse in passes to two `Right(128)` nodes and finally to
`Right((128 + 128) % 256) = Right(0)`, so the optimized program writes cell
0 (value 1) while the original writes cell 256 (value 0). -/
def failSrc : List Char :=
  '+' :: List.replicate 256 '>' ++ ['.']

end BfJit

namespace BfJit

/-- The IR that `IrCode::new` builds from `"[-]"` (used as a concrete
clear-loop instance). -/
def clearLoopIr : List IrOp :=
  [IrOp.JumpIfZero (some 1) (some 3), IrOp.Sub (some 2) 1,
    IrOp.JumpIfNotZero none (some 0)]

end BfJit

set_option maxRecDepth 100000

namespace BfJit

lemma opFromChar_eq (c : Char) :
    opFromChar c = if c ∈ bfChars then some (primOf c) else none := by
  by_cases h : c ∈ bfChars
  · fin_cases h <;> simp [opFromChar, primOf, bfChars]
  · rw [if_neg h]
    unfold opFromChar
    split <;> simp_all [bfChars]

end BfJit

namespace BfJit

/-- Claim C2: `Program::from_string` is exactly the order-preserving filter of
the source over the eight-character alphabet, each such character mapping to
its primitive op, so the instruction count equals the count of those eight
characters. -/
theorem c2_parse_fidelity (s : List Char) :
    fromString s = (s.filter fun c => decide (c ∈ bfChars)).map primOf
  ∧ (fromString s).length = (s.filter fun c => decide (c ∈ bfChars)).length := by
  have main : fromString s = (s.filter fun c => decide (c ∈ bfChars)).map primOf := by
    induction s with
    | nil => rfl
    | cons c cs ih =>
      simp only [fromString, List.filterMap_cons, List.filter_cons] at *
      rw [opFromChar_eq c]
      by_cases h : c ∈ bfChars
      · simp [h, ih]
      · simp [h, ih]
  exact ⟨main, by rw [main, List.length_map]⟩

end BfJit

namespace BfJit

lemma irNewGo_none_of_buildOp_none (program : List Op) :
    ∀ (rest : List Op) (idx k : Nat) (op : Op),
      rest.get? k = some op → buildOp program (idx + k) op = none →
      irNewGo program rest idx = none := by
  intro rest
  induction rest with
  | nil => intro idx k op hk; simp at hk
  | cons r rs ih =>
    intro idx k op hk hb
    cases k with
    | zero =>
      rw [List.get?_cons_zero, Option.some.injEq] at hk
      subst hk
      simp [irNewGo, Nat.add_zero] at hb ⊢
      simp [hb]
    | succ k =>
      rw [List.get?_cons_succ] at hk
      simp only [irNewGo]
      cases hbr : buildOp program idx r with
      | none => rfl
      | some x =>
        have : irNewGo program rs (idx + 1) = none := by
          apply ih (idx + 1) k op hk
          have : idx + 1 + k = idx + (k + 1) := by omega
          rw [this]
          exact hb
        simp [hbr, this]

/-- Claim C3 (amended): parsing itself never aborts; the unbalanced-bracket
abort happens when a bracket-matching scan runs off the end, which is
performed during IR construction (`IrCode::new`), not during parse: whenever
a scan for some bracket fails, `IrCode::new` panics. -/
theorem c3_abort_in_ir_build :
    (∀ (p : List Op) (i : Nat), p.get? i = some Op.JumpForward →
      findMatchingJumpEnd p i = none → irNew p = none)
  ∧ (∀ (p : List Op) (i : Nat), p.get? i = some Op.JumpBackward →
      findMatchingJumpStart p i = none → irNew p = none) := by
  constructor
  · intro p i hi hscan
    apply irNewGo_none_of_buildOp_none p p 0 i Op.JumpForward
    · simpa using hi
    · simp [buildOp, hscan]
  · intro p i hi hscan
    apply irNewGo_none_of_buildOp_none p p 0 i Op.JumpBackward
    · simpa using hi
    · simp [buildOp, hscan]

/-- Counterexample to claim C3 as stated: the unbalanced source `"["` parses
successfully into the one-op program `[JumpForward]` (no abort during
parse); the abort happens later, when `IrCode::new` runs the forward
matching scan, which fails. -/
theorem c3_counterexample :
    fromString "[".toList = [Op.JumpForward]
  ∧ findMatchingJumpEnd [Op.JumpForward] 0 = none
  ∧ irNew [Op.JumpForward] = none := by
  refine ⟨by decide, by decide, by decide⟩

/-- Witness for `c3_abort_in_ir_build` at the concrete unbalanced programs
`[JumpForward]` and `[JumpBackward]`. -/
theorem c3_witness :
    ([Op.JumpForward].get? 0 = some Op.JumpForward
      ∧ findMatchingJumpEnd [Op.JumpForward] 0 = none
      ∧ irNew [Op.JumpForward] = none)
  ∧ ([Op.JumpBackward].get? 0 = some Op.JumpBackward
      ∧ findMatchingJumpStart [Op.JumpBackward] 0 = none
      ∧ irNew [Op.JumpBackward] = none) :=
  ⟨⟨by decide, by decide,
      c3_abort_in_ir_build.1 [Op.JumpForward] 0 (by decide) (by decide)⟩,
    ⟨by decide, by decide,
      c3_abort_in_ir_build.2 [Op.JumpBackward] 0 (by decide) (by decide)⟩⟩

end BfJit

namespace BfJit

lemma i8ToU8_lt (z : Int) : i8ToU8 z < 256 := by
  unfold i8ToU8; omega

lemma i8ToU8_cast (z : Int) : (i8ToU8 z : Int) = z % 256 := by
  unfold i8ToU8; omega

lemma wrapI8_emod (z : Int) : wrapI8 z % 256 = z % 256 := by
  unfold wrapI8; omega

lemma toI8_emod (n : Nat) : toI8 n % 256 = (n : Int) % 256 := by
  unfold toI8; split <;> omega

/-- Claim C5: all operand arithmetic of the two-node fusion rules is modulo
256: `Add(x);Add(y)` fuses to `Add((x+y) % 256)`, `Sub(x);Sub(y)` to
`Sub((x+y) % 256)`, `SetIndirect(c);Add(x)` to `SetIndirect((c+x) % 256)`,
and the mixed `Add`/`Sub` and `Right`/`Left` pairs produce an operand
congruent to the difference modulo 256 (as an `Add`/`Right` when the signed
8-bit result is positive, else as a `Sub`/`Left` of the negated value). -/
theorem c5_fusion_mod256 (x y c : Nat) (l far : Option Nat)
    (_hx : x < 256) (_hy : y < 256) (_hc : c < 256) :
    pairRule (IrOp.Add l x) (IrOp.Add far y) = IrOp.Add far ((x + y) % 256)
  ∧ pairRule (IrOp.Sub l x) (IrOp.Sub far y) = IrOp.Sub far ((x + y) % 256)
  ∧ pairRule (IrOp.SetIndirect l c) (IrOp.Add far x) = IrOp.SetIndirect far ((c + x) % 256)
  ∧ (∃ d, d < 256 ∧
      ((pairRule (IrOp.Add l x) (IrOp.Sub far y) = IrOp.Add far d
          ∧ (d : Int) % 256 = ((x : Int) - y) % 256)
        ∨ (pairRule (IrOp.Add l x) (IrOp.Sub far y) = IrOp.Sub far d
          ∧ (d : Int) % 256 = ((y : Int) - x) % 256)))
  ∧ (∃ d, d < 256 ∧
      ((pairRule (IrOp.Sub l x) (IrOp.Add far y) = IrOp.Add far d
          ∧ (d : Int) % 256 = ((y : Int) - x) % 256)
        ∨ (pairRule (IrOp.Sub l x) (IrOp.Add far y) = IrOp.Sub far d
          ∧ (d : Int) % 256 = ((x : Int) - y) % 256)))
  ∧ (∃ d, d < 256 ∧
      ((pairRule (IrOp.Right l x) (IrOp.Left far y) = IrOp.Right far d
          ∧ (d : Int) % 256 = ((x : Int) - y) % 256)
        ∨ (pairRule (IrOp.Right l x) (IrOp.Left far y) = IrOp.Left far d
          ∧ (d : Int) % 256 = ((y : Int) - x) % 256)))
  ∧ (∃ d, d < 256 ∧
      ((pairRule (IrOp.Left l x) (IrOp.Right far y) = IrOp.Right far d
          ∧ (d : Int) % 256 = ((y : Int) - x) % 256)
        ∨ (pairRule (IrOp.Left l x) (IrOp.Right far y) = IrOp.Left far d
          ∧ (d : Int) % 256 = ((x : Int) - y) % 256))) := by
  have hcong : ∀ a b : Nat, (i8ToU8 (wrapI8 (toI8 a - toI8 b)) : Int) % 256
      = ((a : Int) - b) % 256 := by
    intro a b
    rw [i8ToU8_cast]
    have h1 := wrapI8_emod (toI8 a - toI8 b)
    have h2 := toI8_emod a
    have h3 := toI8_emod b
    omega
  have hcongneg : ∀ a b : Nat,
      (i8ToU8 (wrapI8 (-(wrapI8 (toI8 a - toI8 b)))) : Int) % 256
      = ((b : Int) - a) % 256 := by
    intro a b
    rw [i8ToU8_cast]
    have h1 := wrapI8_emod (-(wrapI8 (toI8 a - toI8 b)))
    have h2 := wrapI8_emod (toI8 a - toI8 b)
    have h3 := toI8_emod a
    have h4 := toI8_emod b
    omega
  refine ⟨rfl, rfl, rfl, ?_, ?_, ?_, ?_⟩
  · simp only [pairRule]
    split
    · exact ⟨_, i8ToU8_lt _, Or.inl ⟨rfl, hcong x y⟩⟩
    · exact ⟨_, i8ToU8_lt _, Or.inr ⟨rfl, hcongneg x y⟩⟩
  · simp only [pairRule]
    split
    · exact ⟨_, i8ToU8_lt _, Or.inl ⟨rfl, hcong y x⟩⟩
    · exact ⟨_, i8ToU8_lt _, Or.inr ⟨rfl, hcongneg y x⟩⟩
  · simp only [pairRule]
    split
    · exact ⟨_, i8ToU8_lt _, Or.inl ⟨rfl, hcong x y⟩⟩
    · exact ⟨_, i8ToU8_lt _, Or.inr ⟨rfl, hcongneg x y⟩⟩
  · simp only [pairRule]
    split
    · exact ⟨_, i8ToU8_lt _, Or.inl ⟨rfl, hcong y x⟩⟩
    · exact ⟨_, i8ToU8_lt _, Or.inr ⟨rfl, hcongneg y x⟩⟩

end BfJit

namespace BfJit

/-- Claim C6: whenever three consecutive chain nodes are `JumpIfZero`, then
`Sub(1)` (or `Add(1)`), then `JumpIfNotZero`, `find_replacement` replaces
the triple by `SetIndirect(0)` whose next link is the `JumpIfNotZero`'s
fall-through link (the link that exits the loop); in particular `"[-]"`
optimizes to the single op `SetIndirect(0)`. -/
theorem c6_clear_loop :
    (∀ (ops : List IrOp) (i j k : Nat) (b c far : Option Nat),
      ops.get? i = some (IrOp.JumpIfZero (some j) b) →
      (ops.get? j = some (IrOp.Sub (some k) 1) ∨ ops.get? j = some (IrOp.Add (some k) 1)) →
      ops.get? k = some (IrOp.JumpIfNotZero far c) →
      findReplacement ops i = some (IrOp.SetIndirect far 0))
  ∧ ((((irNew (fromString "[-]".toList)).bind optimize).bind chain)
      = some [IrOp.SetIndirect none 0]) := by
  constructor
  · intro ops i j k b c far h1 h2 h3
    simp only [List.get?_eq_getElem?] at h1 h3
    rcases h2 with h2 | h2 <;>
      simp only [List.get?_eq_getElem?] at h2 <;>
      simp [findReplacement, h1, h2, h3, IrOp.next, tripleRule]
  · decide

/-- Witness for `c6_clear_loop` at the IR built from `"[-]"`. -/
theorem c6_witness :
    (clearLoopIr.get? 0 = some (IrOp.JumpIfZero (some 1) (some 3))
      ∧ clearLoopIr.get? 1 = some (IrOp.Sub (some 2) 1)
      ∧ clearLoopIr.get? 2 = some (IrOp.JumpIfNotZero none (some 0)))
  ∧ findReplacement clearLoopIr 0 = some (IrOp.SetIndirect none 0) :=
  ⟨⟨by decide, by decide, by decide⟩,
    c6_clear_loop.1 clearLoopIr 0 1 2 (some 3) (some 0) none
      (by decide) (Or.inl (by decide)) (by decide)⟩

/-- Counterexample to claim C7 as stated: the `Write` arm emits the bytes
`49 0F B6 0E` (`movzx rcx, byte ptr [r14]`, a memory load: REX.W+B, escape
opcode `0F B6`, ModR/M `0E` with mod = 00 selecting a memory operand)
followed by `41 FF D4` (`call r12`) — not the register-to-register
`mov rcx, r14` the claim describes, in either of its two x86-64 encodings
(`4C 89 F1` and `49 8B CE`).  RCX therefore receives the byte stored at the
data pointer, not the pointer held in R14. -/
theorem c7_counterexample :
    writeEmit = [0x49, 0x0F, 0xB6, 0x0E, 0x41, 0xFF, 0xD4]
  ∧ ∀ enc ∈ movRcxR14Claimed, writeEmit ≠ enc ++ callReg X64Register.R12 := by
  refine ⟨by decide, by decide⟩

/-- Claim C7 (amended): for every `Write` IR op the emitter emits
`movzx rcx, byte ptr [r14]` (49 0F B6 0E) followed by `call r12` (41 FF D4),
so the value placed in RCX before calling the write callback is the byte
stored at the pointer held in R14 (matching the write callback's `u8`
parameter). -/
theorem c7_write_loads_byte :
    writeEmit = movToReg X64Register.RCX X64Register.R14 ++ callReg X64Register.R12
  ∧ movToReg X64Register.RCX X64Register.R14 = [0x49, 0x0F, 0xB6, 0x0E]
  ∧ callReg X64Register.R12 = [0x41, 0xFF, 0xD4] := by
  refine ⟨rfl, by decide, by decide⟩

/-- Claim C8: for every immediate byte, `add_indirect` with base R12 emits
exactly `41 80 04 24 imm` (REX.B, opcode 80, ModR/M selecting SIB, SIB
meaning no-index base R12) and with base R13 exactly `41 80 45 00 imm`
(mod = 01, rm = 101, disp8 = 0). -/
theorem c8_add_indirect_encoding (imm : Nat) (_h : imm < 256) :
    addIndirect X64Register.R12 imm = [0x41, 0x80, 0x04, 0x24, imm]
  ∧ addIndirect X64Register.R13 imm = [0x41, 0x80, 0x45, 0x00, imm] :=
  ⟨rfl, rfl⟩

/-- Witness for `c8_add_indirect_encoding` at the immediate `0xAB` (the
spec's own test vector). -/
theorem c8_witness :
    (0xAB : Nat) < 256
  ∧ (addIndirect X64Register.R12 0xAB = [0x41, 0x80, 0x04, 0x24, 0xAB]
      ∧ addIndirect X64Register.R13 0xAB = [0x41, 0x80, 0x45, 0x00, 0xAB]) :=
  ⟨by decide, c8_add_indirect_encoding 0xAB (by decide)⟩

end BfJit

namespace BfJit

lemma fmjeAux_jb (p : List Op) :
    ∀ (fuel pos : Nat) (level : Int), 1 ≤ level →
      ∀ j, fmjeAux p pos level fuel = some j → p.get? j = some Op.JumpBackward := by
  intro fuel
  induction fuel with
  | zero => intro pos level hl j h; simp [fmjeAux] at h
  | succ fuel ih =>
    intro pos level hl j h
    rw [fmjeAux] at h
    cases hp : p.get? pos with
    | none => rw [hp] at h; exact absurd h (by simp)
    | some op =>
      rw [hp] at h
      cases op with
      | JumpForward =>
        simp only at h
        rw [if_neg (by omega)] at h
        exact ih (pos + 1) (level + 1) (by omega) j h
      | JumpBackward =>
        simp only at h
        by_cases hz : level - 1 = 0
        · rw [if_pos hz, Option.some.injEq] at h
          rw [← h]
          exact hp
        · rw [if_neg hz] at h
          exact ih (pos + 1) (level - 1) (by omega) j h
      | IncrementPtr =>
        simp only at h
        rw [if_neg (by omega)] at h
        exact ih (pos + 1) level hl j h
      | DecrementPtr =>
        simp only at h
        rw [if_neg (by omega)] at h
        exact ih (pos + 1) level hl j h
      | IncrementMemory =>
        simp only at h
        rw [if_neg (by omega)] at h
        exact ih (pos + 1) level hl j h
      | DecrementMemory =>
        simp only at h
        rw [if_neg (by omega)] at h
        exact ih (pos + 1) level hl j h
      | ReadByte =>
        simp only at h
        rw [if_neg (by omega)] at h
        exact ih (pos + 1) level hl j h
      | WriteByte =>
        simp only at h
        rw [if_neg (by omega)] at h
        exact ih (pos + 1) level hl j h

lemma fmje_at_open (p : List Op) (i j : Nat) (hi : p.get? i = some Op.JumpForward)
    (h : findMatchingJumpEnd p i = some j) : p.get? j = some Op.JumpBackward := by
  unfold findMatchingJumpEnd at h
  rw [fmjeAux, hi] at h
  simp only at h
  rw [if_neg (by omega)] at h
  exact fmjeAux_jb p p.length (i + 1) (0 + 1) (by omega) j h

lemma fmjsAux_jf (p : List Op) :
    ∀ (fuel pos : Nat) (level : Int), 1 ≤ level →
      ∀ j, fmjsAux p pos level fuel = some j → p.get? j = some Op.JumpForward := by
  intro fuel
  induction fuel with
  | zero => intro pos level hl j h; simp [fmjsAux] at h
  | succ fuel ih =>
    intro pos level hl j h
    rw [fmjsAux] at h
    cases hp : p.get? pos with
    | none => rw [hp] at h; exact absurd h (by simp)
    | some op =>
      rw [hp] at h
      cases op with
      | JumpForward =>
        simp only at h
        by_cases hz : level - 1 = 0
        · rw [if_pos hz, Option.some.injEq] at h
          rw [← h]
          exact hp
        · rw [if_neg hz] at h
          rcases Nat.eq_zero_or_pos pos with h0 | h0
          · rw [if_pos h0] at h; exact absurd h (by simp)
          · rw [if_neg (by omega)] at h
            exact ih (pos - 1) (level - 1) (by omega) j h
      | JumpBackward =>
        simp only at h
        rw [if_neg (by omega)] at h
        rcases Nat.eq_zero_or_pos pos with h0 | h0
        · rw [if_pos h0] at h; exact absurd h (by simp)
        · rw [if_neg (by omega)] at h
          exact ih (pos - 1) (level + 1) (by omega) j h
      | IncrementPtr =>
        simp only at h
        rw [if_neg (by omega)] at h
        rcases Nat.eq_zero_or_pos pos with h0 | h0
        · rw [if_pos h0] at h; exact absurd h (by simp)
        · rw [if_neg (by omega)] at h
          exact ih (pos - 1) level hl j h
      | DecrementPtr =>
        simp only at h
        rw [if_neg (by omega)] at h
        rcases Nat.eq_zero_or_pos pos with h0 | h0
        · rw [if_pos h0] at h; exact absurd h (by simp)
        · rw [if_neg (by omega)] at h
          exact ih (pos - 1) level hl j h
      | IncrementMemory =>
        simp only at h
        rw [if_neg (by omega)] at h
        rcases Nat.eq_zero_or_pos pos with h0 | h0
        · rw [if_pos h0] at h; exact absurd h (by simp)
        · rw [if_neg (by omega)] at h
          exact ih (pos - 1) level hl j h
      | DecrementMemory =>
        simp only at h
        rw [if_neg (by omega)] at h
        rcases Nat.eq_zero_or_pos pos with h0 | h0
        · rw [if_pos h0] at h; exact absurd h (by simp)
        · rw [if_neg (by omega)] at h
          exact ih (pos - 1) level hl j h
      | ReadByte =>
        simp only at h
        rw [if_neg (by omega)] at h
        rcases Nat.eq_zero_or_pos pos with h0 | h0
        · rw [if_pos h0] at h; exact absurd h (by simp)
        · rw [if_neg (by omega)] at h
          exact ih (pos - 1) level hl j h
      | WriteByte =>
        simp only at h
        rw [if_neg (by omega)] at h
        rcases Nat.eq_zero_or_pos pos with h0 | h0
        · rw [if_pos h0] at h; exact absurd h (by simp)
        · rw [if_neg (by omega)] at h
          exact ih (pos - 1) level hl j h

lemma fmjs_at_close (p : List Op) (i j : Nat) (hi : p.get? i = some Op.JumpBackward)
    (h : findMatchingJumpStart p i = some j) : p.get? j = some Op.JumpForward := by
  unfold findMatchingJumpStart at h
  rw [fmjsAux, hi] at h
  simp only at h
  rw [if_neg (by omega)] at h
  rcases Nat.eq_zero_or_pos i with h0 | h0
  · rw [if_pos h0] at h; exact absurd h (by simp)
  · rw [if_neg (by omega)] at h
    exact fmjsAux_jf p i (i - 1) (0 + 1) (by omega) j h

end BfJit

namespace BfJit

lemma irNewGo_get (program : List Op) :
    ∀ (rest : List Op) (idx : Nat) (out : List IrOp), irNewGo program rest idx = some out →
      ∀ k op, rest.get? k = some op →
        ∃ x, buildOp program (idx + k) op = some x ∧ out.get? k = some x := by
  intro rest
  induction rest with
  | nil => intro idx out h k op hk; simp at hk
  | cons r rs ih =>
    intro idx out h k op hk
    simp only [irNewGo, Option.bind_eq_bind, Option.bind_eq_some] at h
    obtain ⟨x, hb, xs, hrec, hout⟩ := h
    rw [show (pure (x :: xs) : Option (List IrOp)) = some (x :: xs) from rfl,
      Option.some.injEq] at hout
    subst hout
    cases k with
    | zero =>
      rw [List.get?_cons_zero, Option.some.injEq] at hk
      subst hk
      exact ⟨x, by simpa using hb, rfl⟩
    | succ k =>
      rw [List.get?_cons_succ] at hk
      obtain ⟨x', hb', hout'⟩ := ih (idx + 1) xs hrec k op hk
      refine ⟨x', ?_, ?_⟩
      · have harith : idx + 1 + k = idx + (k + 1) := by omega
        rw [← harith]
        exact hb'
      · rw [List.get?_cons_succ]
        exact hout'

lemma buildOp_jf (p : List Op) (i : Nat) (x : IrOp)
    (h : buildOp p i Op.JumpForward = some x) :
    ∃ e, findMatchingJumpEnd p i = some e
      ∧ x = IrOp.JumpIfZero (if p.length - 1 = i then none else some (i + 1)) (some (e + 1)) := by
  simp only [buildOp, Option.map_eq_some'] at h
  obtain ⟨e, he, hx⟩ := h
  exact ⟨e, he, hx.symm⟩

lemma buildOp_jb (p : List Op) (i : Nat) (x : IrOp)
    (h : buildOp p i Op.JumpBackward = some x) :
    ∃ s, findMatchingJumpStart p i = some s
      ∧ x = IrOp.JumpIfNotZero (if p.length - 1 = i then none else some (i + 1)) (some s) := by
  simp only [buildOp, Option.map_eq_some'] at h
  obtain ⟨s, hs, hx⟩ := h
  exact ⟨s, hs, hx.symm⟩

/-- Claim C9 (amended): in the IR built from any program, each `JumpIfZero`
built from a `[` has secondary link one past its matching `JumpIfNotZero`
(`match + 1`), and each `JumpIfNotZero` built from a `]` has secondary link
exactly the index of its matching `JumpIfZero` — not one past it.
"Matching" is the source's own linear scan with a nesting counter, and the
scan is proved to land on a bracket of the opposite kind. -/
theorem c9_secondary_links (p : List Op) (irops : List IrOp) (hnew : irNew p = some irops) :
    (∀ i, p.get? i = some Op.JumpForward →
      ∃ e nxt nxt2, findMatchingJumpEnd p i = some e
        ∧ irops.get? i = some (IrOp.JumpIfZero nxt (some (e + 1)))
        ∧ p.get? e = some Op.JumpBackward
        ∧ ∃ s, findMatchingJumpStart p e = some s
            ∧ irops.get? e = some (IrOp.JumpIfNotZero nxt2 (some s)))
  ∧ (∀ i, p.get? i = some Op.JumpBackward →
      ∃ s nxt nxt2, findMatchingJumpStart p i = some s
        ∧ irops.get? i = some (IrOp.JumpIfNotZero nxt (some s))
        ∧ p.get? s = some Op.JumpForward
        ∧ ∃ e, findMatchingJumpEnd p s = some e
            ∧ irops.get? s = some (IrOp.JumpIfZero nxt2 (some (e + 1)))) := by
  constructor
  · intro i hi
    obtain ⟨x, hb, hout⟩ := irNewGo_get p p 0 irops hnew i Op.JumpForward (by simpa using hi)
    rw [Nat.zero_add] at hb
    obtain ⟨e, he, hx⟩ := buildOp_jf p i x hb
    have hjb : p.get? e = some Op.JumpBackward := fmje_at_open p i e hi he
    obtain ⟨x2, hb2, hout2⟩ := irNewGo_get p p 0 irops hnew e Op.JumpBackward (by simpa using hjb)
    rw [Nat.zero_add] at hb2
    obtain ⟨s, hs, hx2⟩ := buildOp_jb p e x2 hb2
    subst hx; subst hx2
    exact ⟨e, _, _, he, hout, hjb, s, hs, hout2⟩
  · intro i hi
    obtain ⟨x, hb, hout⟩ := irNewGo_get p p 0 irops hnew i Op.JumpBackward (by simpa using hi)
    rw [Nat.zero_add] at hb
    obtain ⟨s, hs, hx⟩ := buildOp_jb p i x hb
    have hjf : p.get? s = some Op.JumpForward := fmjs_at_close p i s hi hs
    obtain ⟨x2, hb2, hout2⟩ := irNewGo_get p p 0 irops hnew s Op.JumpForward (by simpa using hjf)
    rw [Nat.zero_add] at hb2
    obtain ⟨e, he, hx2⟩ := buildOp_jf p s x2 hb2
    subst hx; subst hx2
    exact ⟨s, _, _, hs, hout, hjf, e, he, hout2⟩

/-- Counterexample to claim C9 as stated: in the IR of `"[-]"` the
`JumpIfNotZero` at index 2 has secondary link `some 0` — the index of the
matching `JumpIfZero` itself — whereas the claim requires one past it,
`some 1`. -/
theorem c9_counterexample :
    (irNew (fromString "[-]".toList)).bind (fun l => l.get? 0)
      = some (IrOp.JumpIfZero (some 1) (some 3))
  ∧ (irNew (fromString "[-]".toList)).bind (fun l => l.get? 2)
      = some (IrOp.JumpIfNotZero none (some 0))
  ∧ findMatchingJumpStart (fromString "[-]".toList) 2 = some 0
  ∧ (some 0 : Option Nat) ≠ some (0 + 1) := by
  refine ⟨by decide, by decide, by decide, by decide⟩

/-- Witness for `c9_secondary_links` at the program `"[-]"`. -/
theorem c9_witness :
    (irNew [Op.JumpForward, Op.DecrementMemory, Op.JumpBackward]
        = some [IrOp.JumpIfZero (some 1) (some 3), IrOp.Sub (some 2) 1,
            IrOp.JumpIfNotZero none (some 0)]
      ∧ ([Op.JumpForward, Op.DecrementMemory, Op.JumpBackward] : List Op).get? 0
        = some Op.JumpForward)
  ∧ (∃ e nxt nxt2,
      findMatchingJumpEnd [Op.JumpForward, Op.DecrementMemory, Op.JumpBackward] 0 = some e
      ∧ ([IrOp.JumpIfZero (some 1) (some 3), IrOp.Sub (some 2) 1,
          IrOp.JumpIfNotZero none (some 0)] : List IrOp).get? 0
          = some (IrOp.JumpIfZero nxt (some (e + 1)))
      ∧ ([Op.JumpForward, Op.DecrementMemory, Op.JumpBackward] : List Op).get? e
          = some Op.JumpBackward
      ∧ ∃ s, findMatchingJumpStart [Op.JumpForward, Op.DecrementMemory, Op.JumpBackward] e
            = some s
          ∧ ([IrOp.JumpIfZero (some 1) (some 3), IrOp.Sub (some 2) 1,
              IrOp.JumpIfNotZero none (some 0)] : List IrOp).get? e
              = some (IrOp.JumpIfNotZero nxt2 (some s))) :=
  ⟨⟨by decide, by decide⟩,
    (c9_secondary_links [Op.JumpForward, Op.DecrementMemory, Op.JumpBackward]
        [IrOp.JumpIfZero (some 1) (some 3), IrOp.Sub (some 2) 1,
          IrOp.JumpIfNotZero none (some 0)] (by decide)).1 0 (by decide)⟩

end BfJit

namespace BfJit

lemma lenAux_ge (ops : List IrOp) :
    ∀ (fuel idx acc r : Nat), lenAux ops idx acc fuel = some r → acc + 1 ≤ r := by
  intro fuel
  induction fuel with
  | zero => intro idx acc r h; simp [lenAux] at h
  | succ fuel ih =>
    intro idx acc r h
    rw [lenAux] at h
    cases hp : ops.get? idx with
    | none => rw [hp] at h; exact absurd h (by simp)
    | some curr =>
      rw [hp] at h
      simp only at h
      cases hn : curr.next with
      | none =>
        rw [hn, Option.some.injEq] at h
        omega
      | some t =>
        rw [hn] at h
        have := ih t (acc + 1) r h
        omega

/-- Claim C10: on the empty IR vector, `IrCode::len`,
`IrCode::optimize_program_once`, `IrCode::optimize` and `IrCode::compile`
(whose first step is `len`) all panic while reading node 0; and whenever
`len` returns, its result is at least 1. -/
theorem c10_empty_ir_panics :
    irLen [] = none
  ∧ optimizeOnce [] = none
  ∧ optimize [] = none
  ∧ compileAllocSize [] = none
  ∧ ∀ (ops : List IrOp) (r : Nat), irLen ops = some r → 1 ≤ r := by
  refine ⟨by decide, by decide, by decide, by decide, ?_⟩
  intro ops r h
  exact lenAux_ge ops (ops.length + 1) 0 0 r h

/-- Witness for the hypothesis-bearing part of `c10_empty_ir_panics` at the
one-op code `[Add 1]`, whose `len` is 1. -/
theorem c10_witness :
    irLen [IrOp.Add none 1] = some 1 ∧ 1 ≤ 1 :=
  ⟨by decide, c10_empty_ir_panics.2.2.2.2 [IrOp.Add none 1] 1 (by decide)⟩

end BfJit

namespace BfJit

lemma wfB_iff (ops : List IrOp) : wfB ops = true ↔ WfLinks ops := by
  unfold wfB WfLinks
  rw [List.all_eq_true]
  constructor
  · intro h i op j hget hnext
    have hi : i < ops.length := by
      by_contra hcon
      rw [List.get?_eq_none.2 (by omega)] at hget
      exact absurd hget (by simp)
    have hx := h i (List.mem_range.2 hi)
    simp only [hget, hnext, Bool.and_eq_true, decide_eq_true_eq] at hx
    exact hx
  · intro h i _
    cases hget : ops.get? i with
    | none => simp [hget]
    | some op =>
      cases hnext : op.next with
      | none => simp [hget, hnext]
      | some j =>
        have := h i op j hget hnext
        simp [hget, hnext, this.1, this.2]

lemma get?_some_of_lt (ops : List IrOp) (i : Nat) (h : i < ops.length) :
    ∃ op, ops.get? i = some op := by
  cases hget : ops.get? i with
  | none => rw [List.get?_eq_none] at hget; omega
  | some op => exact ⟨op, rfl⟩

lemma get?_lt (ops : List IrOp) (i : Nat) (op : IrOp) (h : ops.get? i = some op) :
    i < ops.length := by
  by_contra hcon
  rw [List.get?_eq_none.2 (by omega)] at h
  exact absurd h (by simp)

lemma fr_some (ops : List IrOp) (h : WfLinks ops) (i : Nat) (hi : i < ops.length) :
    ∃ r, findReplacement ops i = some r := by
  obtain ⟨cur, hcur⟩ := get?_some_of_lt ops i hi
  unfold findReplacement
  simp only [hcur]
  cases hn : cur.next with
  | none => exact ⟨cur, rfl⟩
  | some j =>
    obtain ⟨nxt, hnxt⟩ := get?_some_of_lt ops j (h i cur j hcur hn).2
    simp only [hnxt]
    cases hnn : nxt.next with
    | none => exact ⟨pairRule cur nxt, rfl⟩
    | some k =>
      obtain ⟨sub, hsub⟩ := get?_some_of_lt ops k (h j nxt k hnxt hnn).2
      simp only [hsub]
      cases htr : tripleRule cur nxt sub with
      | none => simp only [htr]; exact ⟨pairRule cur nxt, rfl⟩
      | some r => simp only [htr]; exact ⟨r, rfl⟩

lemma fr_get_some (ops : List IrOp) (i : Nat) (r : IrOp)
    (h : findReplacement ops i = some r) : ∃ cur, ops.get? i = some cur := by
  unfold findReplacement at h
  cases hget : ops.get? i with
  | none => rw [hget] at h; exact absurd h (by simp)
  | some cur => exact ⟨cur, rfl⟩

lemma pairRule_next (cur nxt : IrOp) :
    (pairRule cur nxt).next = cur.next ∨ (pairRule cur nxt).next = nxt.next := by
  unfold pairRule
  split <;>
    first
      | (right; rfl)
      | (left; rfl)
      | (dsimp only; split_ifs <;> (right; rfl))

lemma tripleRule_characterize (cur nxt sub r : IrOp) (h : tripleRule cur nxt sub = some r) :
    ∃ far tgt, sub = IrOp.JumpIfNotZero far tgt ∧ r = IrOp.SetIndirect far 0 := by
  unfold tripleRule at h
  split at h
  · rw [Option.some.injEq] at h
    exact ⟨_, _, rfl, h.symm⟩
  · rw [Option.some.injEq] at h
    exact ⟨_, _, rfl, h.symm⟩
  · exact absurd h (by simp)

end BfJit

namespace BfJit

lemma fr_next_steps (ops : List IrOp) (i : Nat) (r cur : IrOp)
    (hget : ops.get? i = some cur) (h : findReplacement ops i = some r) :
    r.next = cur.next
  ∨ (∃ j nxt, cur.next = some j ∧ ops.get? j = some nxt ∧ r.next = nxt.next)
  ∨ (∃ j nxt k sub, cur.next = some j ∧ ops.get? j = some nxt ∧ nxt.next = some k
      ∧ ops.get? k = some sub ∧ r.next = sub.next) := by
  unfold findReplacement at h
  simp only [hget] at h
  cases hn : cur.next with
  | none =>
    simp only [hn, Option.some.injEq] at h
    subst h
    exact Or.inl hn
  | some j =>
    simp only [hn] at h
    cases hnxt : ops.get? j with
    | none => simp only [hnxt] at h; exact absurd h (by simp)
    | some nxt =>
      simp only [hnxt] at h
      cases hnn : nxt.next with
      | none =>
        simp only [hnn, Option.some.injEq] at h
        subst h
        rcases pairRule_next cur nxt with hp | hp
        · exact Or.inl (hp.trans hn)
        · exact Or.inr (Or.inl ⟨j, nxt, rfl, hnxt, hp⟩)
      | some k =>
        simp only [hnn] at h
        cases hsub : ops.get? k with
        | none => simp only [hsub] at h; exact absurd h (by simp)
        | some sub =>
          simp only [hsub] at h
          cases htr : tripleRule cur nxt sub with
          | none =>
            simp only [htr, Option.some.injEq] at h
            subst h
            rcases pairRule_next cur nxt with hp | hp
            · exact Or.inl (hp.trans hn)
            · exact Or.inr (Or.inl ⟨j, nxt, rfl, hnxt, hp⟩)
          | some rr =>
            simp only [htr, Option.some.injEq] at h
            subst h
            obtain ⟨far, tgt, hsub2, hrr⟩ := tripleRule_characterize cur nxt sub rr htr
            subst hrr
            refine Or.inr (Or.inr ⟨j, nxt, k, sub, rfl, hnxt, hnn, hsub, ?_⟩)
            rw [hsub2]
            rfl

lemma fr_next_bound (ops : List IrOp) (i : Nat) (r : IrOp) (h : WfLinks ops)
    (hfr : findReplacement ops i = some r) :
    ∀ m, r.next = some m → i < m ∧ m < ops.length := by
  intro m hm
  obtain ⟨cur, hget⟩ := fr_get_some ops i r hfr
  rcases fr_next_steps ops i r cur hget hfr with hs | ⟨j, nxt, hj, hnxt, hs⟩
    | ⟨j, nxt, k, sub, hj, hnxt, hk, hsub, hs⟩
  · rw [hs] at hm
    exact h i cur m hget hm
  · rw [hs] at hm
    have h1 := h i cur j hget hj
    have h2 := h j nxt m hnxt hm
    exact ⟨by omega, h2.2⟩
  · rw [hs] at hm
    have h1 := h i cur j hget hj
    have h2 := h j nxt k hnxt hk
    have h3 := h k sub m hsub hm
    exact ⟨by omega, h3.2⟩

lemma wf_set (ops : List IrOp) (h : WfLinks ops) (i : Nat) (r : IrOp)
    (hr : ∀ m, r.next = some m → i < m ∧ m < ops.length) :
    WfLinks (ops.set i r) := by
  intro a op j hget hnext
  rw [List.length_set]
  by_cases hai : i = a
  · subst hai
    have hi : i < ops.length := by
      by_contra hcon
      rw [List.set_eq_of_length_le (by omega)] at hget
      have := get?_lt ops i op hget
      omega
    rw [List.get?_set_eq_of_lt r hi, Option.some.injEq] at hget
    subst hget
    exact hr j hnext
  · rw [List.get?_set_ne r ops hai] at hget
    exact h a op j hget hnext

lemma fr_congr (ops opsB : List IrOp) (i : Nat) (h : WfLinks ops)
    (hagree : ∀ k, i ≤ k → opsB.get? k = ops.get? k) :
    findReplacement opsB i = findReplacement ops i := by
  unfold findReplacement
  rw [hagree i le_rfl]
  cases hget : ops.get? i with
  | none => rfl
  | some cur =>
    simp only
    cases hn : cur.next with
    | none => rfl
    | some j =>
      simp only
      have hij := (h i cur j hget hn).1
      rw [hagree j (by omega)]
      cases hget2 : ops.get? j with
      | none => rfl
      | some nxt =>
        simp only
        cases hnn : nxt.next with
        | none => rfl
        | some k =>
          simp only
          have hjk := (h j nxt k hget2 hnn).1
          rw [hagree k (by omega)]

end BfJit

namespace BfJit

lemma chainLenAux_none (ops : List IrOp) (fuel : Nat) (h : 1 ≤ fuel) :
    chainLenAux ops none fuel = some 0 := by
  cases fuel with
  | zero => omega
  | succ fuel => rfl

lemma chainLenAux_mono (ops : List IrOp) :
    ∀ (f1 : Nat) (idx : Option Nat) (L f2 : Nat), f1 ≤ f2 →
      chainLenAux ops idx f1 = some L → chainLenAux ops idx f2 = some L := by
  intro f1
  induction f1 with
  | zero => intro idx L f2 hle h; simp [chainLenAux] at h
  | succ f1 ih =>
    intro idx L f2 hle h
    obtain ⟨f2', rfl⟩ : ∃ f2', f2 = f2' + 1 := ⟨f2 - 1, by omega⟩
    simp only [chainLenAux] at h ⊢
    cases idx with
    | none => exact h
    | some i =>
      simp only at h ⊢
      revert h
      cases hget : ops.get? i with
      | none => intro h; exact absurd h (by simp)
      | some op =>
        intro h
        simp only [Option.map_eq_some'] at h ⊢
        obtain ⟨L2, hL2, rfl⟩ := h
        exact ⟨L2, ih op.next L2 f2' (by omega) hL2, rfl⟩

lemma chainLen_congr (ops opsB : List IrOp) (h : WfLinks ops) :
    ∀ (fuel i : Nat), (∀ k, i ≤ k → opsB.get? k = ops.get? k) →
      chainLenAux opsB (some i) fuel = chainLenAux ops (some i) fuel := by
  intro fuel
  induction fuel with
  | zero => intro i hagree; rfl
  | succ fuel ih =>
    intro i hagree
    simp only [chainLenAux]
    rw [hagree i le_rfl]
    cases hget : ops.get? i with
    | none => rfl
    | some op =>
      simp only
      cases hn : op.next with
      | none =>
        cases fuel with
        | zero => rfl
        | succ fuel => rfl
      | some j =>
        have hij := (h i op j hget hn).1
        rw [ih j (fun k hk => hagree k (by omega))]

lemma chainLen_le (ops : List IrOp) (h : WfLinks ops) :
    ∀ (fuel i L : Nat), chainLenAux ops (some i) fuel = some L → i + L ≤ ops.length := by
  intro fuel
  induction fuel with
  | zero => intro i L hc; simp [chainLenAux] at hc
  | succ fuel ih =>
    intro i L hc
    rw [chainLenAux] at hc
    cases hget : ops.get? i with
    | none => rw [hget] at hc; exact absurd hc (by simp)
    | some op =>
      rw [hget] at hc
      simp only [Option.map_eq_some'] at hc
      obtain ⟨L', hL', rfl⟩ := hc
      have hi := get?_lt ops i op hget
      cases hn : op.next with
      | none =>
        rw [hn] at hL'
        cases fuel with
        | zero => simp [chainLenAux] at hL'
        | succ fuel =>
          rw [chainLenAux] at hL'
          simp only [Option.some.injEq] at hL'
          omega
      | some j =>
        rw [hn] at hL'
        have hij := (h i op j hget hn).1
        have := ih j L' hL'
        omega

lemma chainLen_exists (ops : List IrOp) (h : WfLinks ops) :
    ∀ (d i : Nat), ops.length - i ≤ d → i < ops.length →
      ∃ L, chainLenAux ops (some i) (d + 1) = some L := by
  intro d
  induction d with
  | zero => intro i hd hi; omega
  | succ d ih =>
    intro i hd hi
    obtain ⟨op, hget⟩ := get?_some_of_lt ops i hi
    rw [chainLenAux, hget]
    simp only
    cases hn : op.next with
    | none =>
      refine ⟨1, ?_⟩
      rw [chainLenAux_none ops (d + 1) (by omega)]
      rfl
    | some j =>
      have ⟨hij, hjl⟩ := h i op j hget hn
      obtain ⟨L, hL⟩ := ih j (by omega) hjl
      exact ⟨L + 1, by rw [hL]; rfl⟩

end BfJit

namespace BfJit

lemma passAux_spec :
    ∀ (fuel : Nat) (ops : List IrOp) (i acc : Nat), WfLinks ops → i < ops.length →
      ops.length - i + 1 ≤ fuel →
      ∃ out c, passAux ops (some i) acc fuel = some (out, c)
        ∧ out.length = ops.length
        ∧ WfLinks out
        ∧ (∀ k, k < i → out.get? k = ops.get? k)
        ∧ chainLenAux out (some i) fuel = some (c - acc)
        ∧ acc < c := by
  intro fuel
  induction fuel with
  | zero => intro ops i acc hwf hi hfuel; omega
  | succ fuel ih =>
    intro ops i acc hwf hi hfuel
    obtain ⟨r, hr⟩ := fr_some ops hwf i hi
    have hbound := fr_next_bound ops i r hwf hr
    have hwf2 : WfLinks (ops.set i r) := wf_set ops hwf i r hbound
    have hlen2 : (ops.set i r).length = ops.length := by simp
    have hstep : passAux ops (some i) acc (fuel + 1)
        = passAux (ops.set i r) r.next (acc + 1) fuel := by
      rw [passAux]
      simp only [hr]
    cases hrn : r.next with
    | none =>
      obtain ⟨fuel2, rfl⟩ : ∃ f, fuel = f + 1 := ⟨fuel - 1, by omega⟩
      refine ⟨ops.set i r, acc + 1, ?_, hlen2, hwf2, ?_, ?_, by omega⟩
      · rw [hstep, hrn]; rfl
      · intro k hk
        exact List.get?_set_ne r ops (by omega)
      · have hone : acc + 1 - acc = 1 := by omega
        rw [hone, chainLenAux, List.get?_set_eq_of_lt r hi]
        simp only [hrn]
        rw [chainLenAux_none _ (fuel2 + 1) (by omega)]
        rfl
    | some m =>
      have hmb := hbound m hrn
      have hfuel2 : (ops.set i r).length - m + 1 ≤ fuel := by rw [hlen2]; omega
      obtain ⟨out, c, hpass, hlen3, hwf3, hbelow, hchain, hacc⟩ :=
        ih (ops.set i r) m (acc + 1) hwf2 (by rw [hlen2]; omega) hfuel2
      refine ⟨out, c, ?_, by rw [hlen3, hlen2], hwf3, ?_, ?_, by omega⟩
      · rw [hstep, hrn]; exact hpass
      · intro k hk
        rw [hbelow k (by omega), List.get?_set_ne r ops (by omega)]
      · have houti : out.get? i = some r := by
          rw [hbelow i hmb.1, List.get?_set_eq_of_lt r hi]
        rw [chainLenAux, houti]
        simp only [hrn]
        rw [hchain]
        simp only [Option.map_some']
        have : c - (acc + 1) + 1 = c - acc := by omega
        rw [this]

end BfJit

namespace BfJit

lemma chainLen_step (ops : List IrOp) (i : Nat) (op : IrOp) (F L : Nat)
    (hget : ops.get? i = some op) (hc : chainLenAux ops (some i) F = some L) :
    ∃ F2 L2, F = F2 + 1 ∧ chainLenAux ops op.next F2 = some L2 ∧ L = L2 + 1 := by
  cases F with
  | zero => simp [chainLenAux] at hc
  | succ F =>
    rw [chainLenAux] at hc
    simp only [hget] at hc
    simp only [Option.map_eq_some'] at hc
    obtain ⟨L2, hL2, rfl⟩ := hc
    exact ⟨F, L2, rfl, hL2, rfl⟩

lemma passAux_count_le :
    ∀ (fuel : Nat) (ops : List IrOp) (idx : Option Nat) (acc F L : Nat),
      WfLinks ops → chainLenAux ops idx F = some L →
      ∀ out c, passAux ops idx acc fuel = some (out, c) → c ≤ acc + L := by
  intro fuel
  induction fuel with
  | zero => intro ops idx acc F L hwf hc out c hp; simp [passAux] at hp
  | succ fuel ih =>
    intro ops idx acc F L hwf hc out c hp
    cases idx with
    | none =>
      rw [passAux] at hp
      simp only [Option.some.injEq, Prod.mk.injEq] at hp
      omega
    | some i =>
      rw [passAux] at hp
      cases hr : findReplacement ops i with
      | none => rw [hr] at hp; exact absurd hp (by simp)
      | some r =>
        rw [hr] at hp
        simp only at hp
        obtain ⟨cur, hget⟩ := fr_get_some ops i r hr
        obtain ⟨F1, L1, rfl, hc1, rfl⟩ := chainLen_step ops i cur F L hget hc
        cases hrn : r.next with
        | none =>
          rw [hrn] at hp
          cases fuel with
          | zero => simp [passAux] at hp
          | succ fuel =>
            rw [passAux] at hp
            simp only [Option.some.injEq, Prod.mk.injEq] at hp
            omega
        | some m =>
          rw [hrn] at hp
          have hmb := fr_next_bound ops i r hwf hr m hrn
          have hwf2 : WfLinks (ops.set i r) :=
            wf_set ops hwf i r (fr_next_bound ops i r hwf hr)
          have hagree : ∀ k, m ≤ k → (ops.set i r).get? k = ops.get? k := by
            intro k hk
            exact List.get?_set_ne r ops (by omega)
          have key : ∃ Fr Lr, chainLenAux ops (some m) Fr = some Lr ∧ Lr + 1 ≤ L1 + 1 := by
            rcases fr_next_steps ops i r cur hget hr with hs | ⟨j, nxt, hj, hnxt, hs⟩
              | ⟨j, nxt, k, sub, hj, hnxt, hk, hsub, hs⟩
            · rw [hs] at hrn
              rw [hrn] at hc1
              exact ⟨F1, L1, hc1, by omega⟩
            · rw [hj] at hc1
              obtain ⟨F2, L2, rfl, hc2, rfl⟩ := chainLen_step ops j nxt F1 L1 hnxt hc1
              rw [hs] at hrn
              rw [hrn] at hc2
              exact ⟨F2, L2, hc2, by omega⟩
            · rw [hj] at hc1
              obtain ⟨F2, L2, rfl, hc2, rfl⟩ := chainLen_step ops j nxt F1 L1 hnxt hc1
              rw [hk] at hc2
              obtain ⟨F3, L3, rfl, hc3, rfl⟩ := chainLen_step ops k sub F2 L2 hsub hc2
              rw [hs] at hrn
              rw [hrn] at hc3
              exact ⟨F3, L3, hc3, by omega⟩
          obtain ⟨Fr, Lr, hcr, hle⟩ := key
          have hcr2 : chainLenAux (ops.set i r) (some m) Fr = some Lr := by
            rw [chainLen_congr ops (ops.set i r) hwf Fr m hagree]
            exact hcr
          have := ih (ops.set i r) (some m) (acc + 1) Fr Lr hwf2 hcr2 out c hp
          omega

end BfJit

namespace BfJit

lemma optimizeOnce_spec (ops : List IrOp) (hwf : WfLinks ops) (hne : 0 < ops.length) :
    ∃ out c, optimizeOnce ops = some (out, c) ∧ out.length = ops.length ∧ WfLinks out
      ∧ chainLenAux out (some 0) (ops.length + 1) = some c ∧ 0 < c := by
  obtain ⟨out, c, h1, h2, h3, _h4, h5, h6⟩ :=
    passAux_spec (ops.length + 1) ops 0 0 hwf hne (by omega)
  exact ⟨out, c, h1, h2, h3, by simpa using h5, h6⟩

lemma optimizeLoop_some :
    ∀ (old : Nat) (ops : List IrOp) (lf pf : Nat), WfLinks ops → 0 < ops.length →
      pf = ops.length + 1 → chainLenAux ops (some 0) pf = some old →
      old + 1 ≤ lf → ∃ res, optimizeLoop ops old pf lf = some res := by
  intro old
  induction old using Nat.strong_induction_on with
  | _ old ihs =>
    intro ops lf pf hwf hne hpf hchain hlf
    obtain ⟨lf2, rfl⟩ : ∃ l, lf = l + 1 := ⟨lf - 1, by omega⟩
    subst hpf
    obtain ⟨out, c, hpass, hlen, hwfo, hco, hcpos⟩ := optimizeOnce_spec ops hwf hne
    unfold optimizeOnce at hpass
    have hle : c ≤ old := by
      have := passAux_count_le (ops.length + 1) ops (some 0) 0 (ops.length + 1) old
        hwf hchain out c hpass
      omega
    rw [optimizeLoop, hpass]
    simp only
    by_cases hoc : old ≤ c
    · rw [if_pos hoc]
      exact ⟨out, rfl⟩
    · rw [if_neg hoc]
      refine ihs c (by omega) out lf2 (ops.length + 1) hwfo (by omega) ?_ ?_ (by omega)
      · rw [hlen]
      · exact hco

/-- Claim C4: for every non-empty well-formed (strictly forward, in-range
links — the acyclic-chain shape `IrCode::new` produces) IR vector, the node
count returned by successive `optimize_program_once` passes is
non-increasing (`c2 ≤ c1`, stated for an arbitrary such vector, hence for
every adjacent pair of passes), and `IrCode::optimize` terminates (the
wrapper's fuels, amounting to at most `first count + 1` passes, are proved
sufficient).  Together with the loop's exit condition `new >= old` this is
exactly the spec's monotonicity-and-termination property: each non-terminal
pass strictly decreases the count, and the loop stops at the first pass
that fails to do so. -/
theorem c4_optimizer_monotone_terminates (ops : List IrOp)
    (hwf : wfB ops = true) (hne : ops ≠ []) :
    ∃ out1 c1 out2 c2,
      optimizeOnce ops = some (out1, c1)
      ∧ optimizeOnce out1 = some (out2, c2)
      ∧ c2 ≤ c1
      ∧ (∃ res, optimize ops = some res) := by
  have hwf0 := (wfB_iff ops).1 hwf
  have hne0 : 0 < ops.length := List.length_pos.2 hne
  obtain ⟨out1, c1, h1, hlen1, hwf1, hchain1, hc1pos⟩ := optimizeOnce_spec ops hwf0 hne0
  obtain ⟨out2, c2, h2, hlen2, hwf2, hchain2, hc2pos⟩ :=
    optimizeOnce_spec out1 hwf1 (by omega)
  have h2' := h2
  unfold optimizeOnce at h2'
  have hle : c2 ≤ c1 := by
    have := passAux_count_le (out1.length + 1) out1 (some 0) 0 (ops.length + 1) c1
      hwf1 hchain1 out2 c2 h2'
    omega
  have hterm : ∃ res, optimize ops = some res := by
    unfold optimize
    rw [h1]
    have hc1len : c1 ≤ ops.length := by
      have := chainLen_le out1 hwf1 (ops.length + 1) 0 c1 hchain1
      omega
    refine optimizeLoop_some c1 out1 (ops.length + 2) (ops.length + 1) hwf1 (by omega) ?_ ?_
      (by omega)
    · rw [hlen1]
    · exact hchain1
  exact ⟨out1, c1, out2, c2, h1, h2, hle, hterm⟩

end BfJit

namespace BfJit

/-- Witness for `c5_fusion_mod256` at `x = 200`, `y = 100`, `c = 3` (the
`Add/Add` fusion wraps: `(200 + 100) % 256 = 44`, and the mixed pair
`Add(200); Sub(100)` yields `Add(100)` since the signed result of
`200 as i8 - 100 as i8` wraps to `100`). -/
theorem c5_witness :
    ((200 : Nat) < 256 ∧ (100 : Nat) < 256 ∧ (3 : Nat) < 256)
  ∧ pairRule (IrOp.Add none 200) (IrOp.Add none 100) = IrOp.Add none 44
  ∧ (∃ d, d < 256 ∧
      ((pairRule (IrOp.Add none 200) (IrOp.Sub none 100) = IrOp.Add none d
          ∧ (d : Int) % 256 = ((200 : Int) - 100) % 256)
        ∨ (pairRule (IrOp.Add none 200) (IrOp.Sub none 100) = IrOp.Sub none d
          ∧ (d : Int) % 256 = ((100 : Int) - 200) % 256))) :=
  ⟨⟨by decide, by decide, by decide⟩,
    (c5_fusion_mod256 200 100 3 none none (by decide) (by decide) (by decide)).1,
    (c5_fusion_mod256 200 100 3 none none (by decide) (by decide) (by decide)).2.2.2.1⟩

/-- Witness for `c4_optimizer_monotone_terminates` at the IR of `"+++"`. -/
theorem c4_witness :
    (wfB [IrOp.Add (some 1) 1, IrOp.Add (some 2) 1, IrOp.Add none 1] = true
      ∧ [IrOp.Add (some 1) 1, IrOp.Add (some 2) 1, IrOp.Add none 1] ≠ [])
  ∧ (∃ out1 c1 out2 c2,
      optimizeOnce [IrOp.Add (some 1) 1, IrOp.Add (some 2) 1, IrOp.Add none 1]
        = some (out1, c1)
      ∧ optimizeOnce out1 = some (out2, c2)
      ∧ c2 ≤ c1
      ∧ (∃ res, optimize [IrOp.Add (some 1) 1, IrOp.Add (some 2) 1, IrOp.Add none 1]
          = some res)) :=
  ⟨⟨by decide, by decide⟩,
    c4_optimizer_monotone_terminates
      [IrOp.Add (some 1) 1, IrOp.Add (some 2) 1, IrOp.Add none 1] (by decide) (by decide)⟩

end BfJit

namespace BfJit

/-- Claim C1 fails on the code (optimization does not preserve semantics):
on the halting source `failSrc` (`+`, then 256 `>`, then `.`) the
unoptimized IR writes the byte `0` (cell 256 of the zero tape) while the
optimized IR writes the byte `1` (cell 0).  The optimizer pairwise fuses
the 256 unit `Right` nodes until the final fusion computes
`Right((128 + 128) % 256) = Right(0)` — the `u8` operand wrap of claim C5
applied to a pointer distance — so the optimized program never moves the
data pointer.  (In a debug build the same fusion panics on `u8` overflow
instead; either way the optimized artifact does not reproduce the reference
output.) -/
theorem c1_optimizer_changes_output :
    ((irNew (fromString failSrc)).bind fun ops => irOutput ops (fun _ => 0) 300) = some [0]
  ∧ (((irNew (fromString failSrc)).bind optimize).bind fun ops =>
      irOutput ops (fun _ => 0) 300) = some [1]
  ∧ (((irNew (fromString failSrc)).bind optimize).bind chain
      = some [IrOp.Add (some 1) 1, IrOp.Right (some 257) 0, IrOp.Write none])
  ∧ ([0] : List Nat) ≠ [1] := by
  refine ⟨by decide, by decide, by decide, by decide⟩

end BfJit
